import Mathlib

/-!
Shallow embedding of the ObserverBE analytics backend (src/app.py) and proofs
about its endpoint logic.  Mongo queries and aggregation pipelines are embedded
as pure list transformations; external collaborators (the GeoIP resolver, the
datetime parser of the store and of Python, the remote enforcement service)
are passed in as function parameters, and machine side effects (sleeping,
raising) are made explicit in return values.
-/

/-- Insertion step of the stable sort: x is placed immediately before the first
element y with lt x y = true, hence after every element it does not strictly
precede.  With a strict key comparison this is stable. -/
def stableInsert {α : Type} (lt : α → α → Bool) (x : α) : List α → List α
  | [] => [x]
  | y :: ys => if lt x y then x :: y :: ys else y :: stableInsert lt x ys

/-- Stable sort by repeated insertion, processing the list left to right.
Models Python sorted / list.sort (which are stable) and the sort stages of the
store pipelines (whose tie order is unspecified; this is one deterministic
choice). -/
def stableSort {α : Type} (lt : α → α → Bool) (l : List α) : List α :=
  l.foldl (fun acc x => stableInsert lt x acc) []

/-- Sort descending by a key, ties kept in first-appearance order. -/
def sortByKeyDesc {α β : Type} [LinearOrder β] (key : α → β) (l : List α) : List α :=
  stableSort (fun a b => decide (key b < key a)) l

/-- Sort ascending by a key, ties kept in first-appearance order. -/
def sortByKeyAsc {α β : Type} [LinearOrder β] (key : α → β) (l : List α) : List α :=
  stableSort (fun a b => decide (key a < key b)) l

/-- Lexicographic strict comparison of character lists by code point: the
order in which the store compares string timestamps and in which Python
compares strings. -/
def strLtB : List Char → List Char → Bool
  | [], [] => false
  | [], _ :: _ => true
  | _ :: _, [] => false
  | a :: as, b :: bs =>
    if a.toNat < b.toNat then true
    else if b.toNat < a.toNat then false
    else strLtB as bs

/-- Strict lexicographic string comparison. -/
def strLt (a b : String) : Bool :=
  strLtB a.data b.data

/-- Lexicographic string comparison, non-strict. -/
def strLe (a b : String) : Bool :=
  !(strLt b a)

/-- Larger of two strings. -/
def strMax (a b : String) : String :=
  if strLt a b then b else a

/-- Sort descending by a string key (store sort by timestamp descending),
ties kept in first-appearance order. -/
def sortByTsDesc {α : Type} (ts : α → String) (l : List α) : List α :=
  stableSort (fun a b => strLt (ts b) (ts a)) l

/-- Sort ascending by a string key (store sort by bucket key ascending), ties
kept in first-appearance order. -/
def sortByTsAsc {α : Type} (ts : α → String) (l : List α) : List α :=
  stableSort (fun a b => strLt (ts a) (ts b)) l

/-- Maximum of a list of strings (BSON string comparison), as computed by the
store accumulator max over a nonempty group; "" for an empty list. -/
def maxString : List String → String
  | [] => ""
  | s :: rest => rest.foldl strMax s

/-- Mongo setUnion of two arrays of strings: deduplicated union (its order is
unspecified by the store; modeled as left-to-right first-kept dedup of the
concatenation as given by List.dedup). -/
def setUnion (a b : List String) : List String :=
  (a ++ b).dedup

/-- Run f over a list, failing (like an uncaught exception in a Python loop)
as soon as one application fails. -/
def mapOrFail {α β : Type} (f : α → Option β) : List α → Option (List β)
  | [] => some []
  | x :: xs =>
    match f x with
    | none => none
    | some y => (mapOrFail f xs).map (fun ys => y :: ys)

/-- Count held by a rule-frequency table (Python defaultdict(int)) for a rule:
0 when the rule is absent. -/
def lookupCount (tbl : List (String × Nat)) (r : String) : Nat :=
  match tbl.lookup r with
  | some n => n
  | none => 0

/-- Increment the count of rule r in an insertion-ordered frequency table,
appending (r, 1) when r is new: Python defaultdict(int) increment. -/
def bumpRule : List (String × Nat) → String → List (String × Nat)
  | [], r => [(r, 1)]
  | p :: ps, r => if p.1 = r then (p.1, p.2 + 1) :: ps else p :: bumpRule ps r

/-- Python set.add on an insertion-ordered list model of a set. -/
def setAdd (l : List String) (x : String) : List String :=
  if x ∈ l then l else l ++ [x]

/-- JSON-like value of a request body. -/
inductive Json where
  | null
  | bool (b : Bool)
  | num (q : Rat)
  | str (s : String)
  | arr (elems : List Json)
  | obj (fields : List (String × Json))

/-- Python bool( ) truthiness on a JSON value, as applied by
set_prevention_mode at line 69 of app.py. -/
def pyBool : Json → Bool
  | .null => false
  | .bool b => b
  | .num q => decide (q ≠ 0)
  | .str s => decide (s ≠ "")
  | .arr [] => false
  | .arr (_ :: _) => true
  | .obj [] => false
  | .obj (_ :: _) => true

/-- Key lookup in a JSON object (Python dict indexing; dict keys are unique,
so first match). -/
def lookupKey (fields : List (String × Json)) (k : String) : Option Json :=
  (fields.find? (fun p => p.1 == k)).map (fun p => p.2)

/-- Body of the 200 response of POST /api/waf/prevention. -/
structure PreventionResponse where
  enabled : Bool
  status : String
deriving DecidableEq

/-- Outcome of POST /api/waf/prevention: a 400 for a missing body or missing
enabled key, or the success JSON. -/
inductive SetPreventionResult where
  | badRequest
  | success (resp : PreventionResponse)
deriving DecidableEq

/-- set_prevention_mode (app.py lines 62-97).  The persisted config record is
Option Bool (none = record absent); body none models an unreadable JSON body.
forwardOk is the outcome of the forwarding POST to the WAF server: the value
is deliberately ignored by the handler, because a RequestException is caught,
logged and swallowed, and the handler returns success with the locally
persisted value regardless. -/
def set_prevention_mode (config : Option Bool) (body : Option (List (String × Json)))
    (forwardOk : Bool) : Option Bool × SetPreventionResult :=
  match body with
  | none => (config, .badRequest)
  | some data =>
    match lookupKey data "enabled" with
    | none => (config, .badRequest)
    | some v =>
      let enabled := pyBool v
      (some enabled, .success ⟨enabled, "success"⟩)

/-- get_prevention_mode (app.py lines 49-59): enabled of the config record,
false when the record is absent. -/
def get_prevention_mode (config : Option Bool) : Bool :=
  match config with
  | some b => b
  | none => false

/-- One stored log record.  oid models the Mongo _id (an internal identifier
present on every stored document); extra models the arbitrary additional
fields, which in this embedding are already primitive. -/
structure LogRecord where
  oid : Nat
  timestamp : String
  ip : String
  injection_detected : Bool
  matched_rules : List String
  extra : List (String × String)
deriving DecidableEq

/-- A record as returned by GET /api/logs: the projection of fetch_logs
excludes _id explicitly. -/
structure LogOut where
  timestamp : String
  ip : String
  injection_detected : Bool
  matched_rules : List String
  extra : List (String × String)
deriving DecidableEq

/-- Projection applied by the find of fetch_logs: drop _id, keep the rest. -/
def dropId (r : LogRecord) : LogOut :=
  ⟨r.timestamp, r.ip, r.injection_detected, r.matched_rules, r.extra⟩

/-- Query construction of fetch_logs (app.py lines 149-158).  The body of the
try block is a plain dict assignment that cannot raise ValueError, so for any
truthy since string the filter is installed unchanged; only an absent or empty
since leaves the query unfiltered. -/
def buildLogsQuery (since : Option String) : Option String :=
  match since with
  | none => none
  | some s => if s = "" then none else some s

/-- fetch_logs (app.py lines 148-175): filter by timestamp greater than the
cursor when one was installed, sort descending by timestamp, limit 100, strip
_id.  The serialization pass is the identity here because every modeled field
is already primitive. -/
def fetch_logs (since : Option String) (logs : List LogRecord) : List LogOut :=
  let matched :=
    match buildLogsQuery since with
    | none => logs
    | some s => logs.filter (fun r => strLt s r.timestamp)
  ((sortByTsDesc (fun r => r.timestamp) matched).take 100).map dropId

/-- An element of latest_activity in GET /api/status.  The find projection
{timestamp: 1, analysis_result.injection_detected: 1} is an inclusion
projection, and the store includes _id unless it is excluded explicitly, so
the internal identifier is part of every returned document. -/
structure ActivityEntry where
  oid : Nat
  timestamp : String
  injection_detected : Bool
deriving DecidableEq

/-- Response of GET /api/status. -/
structure StatusResponse where
  total_requests : Nat
  attacks_detected : Nat
  prevention_mode : Bool
  latest_activity : List ActivityEntry
deriving DecidableEq

/-- get_status (app.py lines 101-126). -/
def get_status (config : Option Bool) (logs : List LogRecord) : StatusResponse :=
  { total_requests := logs.length
    attacks_detected := (logs.filter (fun r => r.injection_detected)).length
    prevention_mode :=
      match config with
      | some b => b
      | none => false
    latest_activity :=
      ((sortByTsDesc (fun r => r.timestamp) logs).take 10).map
        (fun r => ⟨r.oid, r.timestamp, r.injection_detected⟩) }

/-- Loop of with_retry (app.py lines 128-140).  func takes the 0-based attempt
index (each call of the wrapped operation may behave differently); delay is
the base delay.  fuel is max_retries - retries, making the while condition
retries < max_retries structural.  Returns the list of performed sleep
durations and the outcome: some (ok a) models return a, some (error e) models
raise e, and none models falling out of the loop (Python returns None). -/
def retryLoop {E A : Type} (func : Nat → Except E A) (delay : Rat) (max_retries : Nat) :
    Nat → Nat → List Rat × Option (Except E A)
  | _, 0 => ([], none)
  | retries, fuel + 1 =>
    match func retries with
    | .ok a => ([], some (.ok a))
    | .error e =>
      if retries + 1 = max_retries then ([], some (.error e))
      else
        let rest := retryLoop func delay max_retries (retries + 1) fuel
        (delay * 2 ^ (retries + 1 - 1) :: rest.1, rest.2)

/-- with_retry (app.py lines 128-140) applied to an operation. -/
def with_retry {E A : Type} (func : Nat → Except E A) (max_retries : Nat) (delay : Rat) :
    List Rat × Option (Except E A) :=
  retryLoop func delay max_retries 0 max_retries

/-- One bucket of GET /api/attack-timeline. -/
structure TimelineBucket where
  timestamp : String
  total_requests : Nat
  attacks : Nat
deriving DecidableEq

/-- get_attack_timeline (app.py lines 205-258).  hourKey models the external
dateFromString (timezone America/Chicago) composed with dateToString
"%Y-%m-%d %H:00" of the store: none models a raising parse, which aborts the
aggregate; the handler catches the failure and answers with an empty list.
startT and endT are the isoformat window bounds; the match stage compares
timestamps as strings. -/
def get_attack_timeline (hourKey : String → Option String) (startT endT : String)
    (records : List LogRecord) : List TimelineBucket :=
  let inWindow := records.filter
    (fun r => strLe startT r.timestamp && strLe r.timestamp endT)
  if inWindow.all (fun r => (hourKey r.timestamp).isSome) then
    let keyed := inWindow.map (fun r => ((hourKey r.timestamp).getD "", r))
    let keys := (keyed.map (fun p => p.1)).dedup
    sortByTsAsc (fun b => b.timestamp)
      (keys.map (fun k =>
        let grp := keyed.filter (fun p => p.1 == k)
        ⟨k, grp.length, (grp.filter (fun p => p.2.injection_detected)).length⟩))
  else []

/-- One entry of GET /api/anomalous-ips. -/
structure IPThreatEntry where
  ip : String
  total_requests : Nat
  anomalous_requests : Nat
  last_detected : String
  threat_level : Rat
  matched_rules : List String
deriving DecidableEq

/-- The group and project stages of get_anomalous_ips (app.py lines 263-310)
for one ip: total count, flagged count, max timestamp, threat level
(anomalous / total) * 100, and the reduce-setUnion of the addToSet of the
per-record rule lists (a flagged record contributes its list, a non-flagged
record contributes the empty list). -/
def groupEntry (records : List LogRecord) (ip : String) : IPThreatEntry :=
  let grp := records.filter (fun r => r.ip == ip)
  let anomalous := (grp.filter (fun r => r.injection_detected)).length
  ⟨ip, grp.length, anomalous, maxString (grp.map (fun r => r.timestamp)),
    ((anomalous : Rat) / (grp.length : Rat)) * 100,
    ((grp.map (fun r => if r.injection_detected then r.matched_rules else [])).dedup).foldl
      setUnion []⟩

/-- get_anomalous_ips (app.py lines 260-323): group all records by ip, keep
groups with a positive flagged count, sort descending by threat level, limit
15. -/
def get_anomalous_ips (records : List LogRecord) : List IPThreatEntry :=
  let entries := ((records.map (fun r => r.ip)).dedup).map (groupEntry records)
  (sortByKeyDesc (fun e => e.threat_level)
    (entries.filter (fun e => decide (0 < e.anomalous_requests)))).take 15

/-- Answer of the external GeoIP resolver for one IP on a successful lookup:
possibly absent country name and coordinates.  Coordinates are opaque to the
handler; they are modeled as integers. -/
structure GeoInfo where
  country_name : Option String
  latitude : Option Int
  longitude : Option Int
deriving DecidableEq

/-- Country attribution of a resolved IP: geo.country.name or "Unknown". -/
def countryOf (geo : GeoInfo) : String :=
  match geo.country_name with
  | some c => c
  | none => "Unknown"

/-- The match stage of get_attack_origins (app.py lines 335-340): flagged
records whose timestamp is at least the isoformat window bound (string
comparison). -/
def windowFlagged (since : String) (records : List LogRecord) : List LogRecord :=
  records.filter (fun r => r.injection_detected && strLe since r.timestamp)

/-- One element of the group stage output of get_attack_origins. -/
structure IpGroup where
  ip : String
  attack_count : Nat
  last_attack : String
  matched_rules : List (List String)
deriving DecidableEq

/-- The group stage accumulators of get_attack_origins (app.py lines 341-348)
for one ip: count, max timestamp, and addToSet of the rule lists (distinct
lists only). -/
def mkIpGroup (flagged : List LogRecord) (ip : String) : IpGroup :=
  let grp := flagged.filter (fun r => r.ip == ip)
  ⟨ip, grp.length, maxString (grp.map (fun r => r.timestamp)),
    (grp.map (fun r => r.matched_rules)).dedup⟩

/-- The aggregation pipeline of get_attack_origins (app.py lines 334-351). -/
def groupAttacksByIp (since : String) (records : List LogRecord) : List IpGroup :=
  let flagged := windowFlagged since records
  ((flagged.map (fun r => r.ip)).dedup).map (mkIpGroup flagged)

/-- Per-country accumulator of get_attack_origins (app.py lines 354-359):
running attack count, insertion-ordered unique IP set, best last-attack time
seen so far (as parsed by datetime.fromisoformat, abstracted to Int), and the
insertion-ordered rule frequency table. -/
structure CountryStats where
  attack_count : Nat
  unique_ips : List String
  last_attack : Option Int
  common_rules : List (String × Nat)
deriving DecidableEq

/-- Replace the binding of a key in an insertion-ordered association list, or
append it: mutation of a Python dict entry. -/
def upsertStats : List (String × CountryStats) → String → CountryStats →
    List (String × CountryStats)
  | [], c, s => [(c, s)]
  | p :: ps, c, s => if p.1 = c then (c, s) :: ps else p :: upsertStats ps c s

/-- Body of the per-group try block of get_attack_origins after the country is
known (app.py lines 367-380).  pt models datetime.fromisoformat composed with
the Z-to-offset replace: none models a raising parse.  The attack_count and
unique_ips updates precede the parse, so they survive a parse failure (the
exception is caught by the per-IP handler and the loop continues); the
last_attack comparison and the rule counting happen only on parse success. -/
def applyGroup (pt : String → Option Int) (s : CountryStats) (g : IpGroup) : CountryStats :=
  let s1 : CountryStats :=
    ⟨s.attack_count + g.attack_count, setAdd s.unique_ips g.ip, s.last_attack, s.common_rules⟩
  match pt g.last_attack with
  | none => s1
  | some t =>
    ⟨s1.attack_count, s1.unique_ips,
      (match s1.last_attack with
       | none => some t
       | some t0 => if t0 < t then some t else some t0),
      g.matched_rules.foldl (fun tbl lst => lst.foldl bumpRule tbl) s1.common_rules⟩

/-- Current accumulator of a country in the countries dict: the stored one,
or the zero defaultdict initializer on first access. -/
def lookupStats (acc : List (String × CountryStats)) (c : String) : CountryStats :=
  match acc.lookup c with
  | some s => s
  | none => ⟨0, [], none, []⟩

/-- One iteration of the geolocation loop of get_attack_origins (app.py lines
361-384).  r₁ is the GeoIP resolver as called in this loop: none models a
raising reader.city, which is caught per IP and skips the group. -/
def processGroup (r₁ : String → Option GeoInfo) (pt : String → Option Int)
    (acc : List (String × CountryStats)) (g : IpGroup) : List (String × CountryStats) :=
  match r₁ g.ip with
  | none => acc
  | some geo =>
    let c := countryOf geo
    upsertStats acc c (applyGroup pt (lookupStats acc c) g)

/-- The countries dict after the whole geolocation loop of get_attack_origins. -/
def countriesAcc (r₁ : String → Option GeoInfo) (pt : String → Option Int)
    (gs : List IpGroup) : List (String × CountryStats) :=
  gs.foldl (processGroup r₁ pt) []

/-- One element of the response of GET /api/attack-origins.  last_attack
carries the parsed maximal attack time (its isoformat serialization is
omitted). -/
structure CountryOrigin where
  country : String
  attack_count : Nat
  unique_ips : Nat
  last_attack : Option Int
  latitude : Option Int
  longitude : Option Int
  top_attack_types : List (String × Nat)
deriving DecidableEq

/-- The response-formatting loop body of get_attack_origins (app.py lines
388-404) for one country.  r₂ is the GeoIP resolver as called at lines
401-402 for the representative IP (the first element of the unique-IP set):
none models a raising reader.city, and an empty unique-IP set models the
raising list indexing; either failure is NOT caught here and aborts the whole
request, which is modeled by returning none. -/
def formatCountry (r₂ : String → Option GeoInfo) (p : String × CountryStats) :
    Option CountryOrigin :=
  match p.2.unique_ips.head? with
  | none => none
  | some rep =>
    match r₂ rep with
    | none => none
    | some geo =>
      some ⟨p.1, p.2.attack_count, p.2.unique_ips.length, p.2.last_attack,
        geo.latitude, geo.longitude,
        (sortByKeyDesc (fun q => q.2) p.2.common_rules).take 5⟩

/-- Outcome of GET /api/attack-origins: the 500 error response produced by the
outer handler, or the formatted country list. -/
inductive OriginsResult where
  | error
  | ok (entries : List CountryOrigin)
deriving DecidableEq

/-- get_attack_origins (app.py lines 326-412).  since is the isoformat lower
window bound (utcnow minus the hours parameter).  A failure inside the
formatting loop escapes to the outer handler and yields the error response;
otherwise the countries are sorted descending by attack count. -/
def get_attack_origins (r₁ r₂ : String → Option GeoInfo) (pt : String → Option Int)
    (since : String) (records : List LogRecord) : OriginsResult :=
  match mapOrFail (formatCountry r₂) (countriesAcc r₁ pt (groupAttacksByIp since records)) with
  | none => .error
  | some entries => .ok (sortByKeyDesc (fun c => c.attack_count) entries)

/-- Country attribution of an ip through a resolver. -/
def resolveIp (r₁ : String → Option GeoInfo) (ip : String) : Option String :=
  (r₁ ip).map countryOf

/-- The distinct source IPs of the flagged window records that resolve to a
given country (the successfully resolved contributors of that country). -/
def specCountryIps (r₁ : String → Option GeoInfo) (since : String)
    (records : List LogRecord) (country : String) : List String :=
  (((windowFlagged since records).map (fun r => r.ip)).dedup).filter
    (fun ip => resolveIp r₁ ip == some country)

/-- Occurrences of a rule across the distinct matched-rule lists of the
flagged window records of one ip (identical lists of one ip collapse to one
occurrence of the list). -/
def dedupRuleOcc (since : String) (records : List LogRecord) (ip : String)
    (rule : String) : Nat :=
  (((((windowFlagged since records).filter (fun r => r.ip == ip)).map
      (fun r => r.matched_rules)).dedup).flatten).count rule

/-- Amended reading of the rule frequency of a country: occurrences of the
rule summed over the distinct matched-rule lists of each successfully
resolved contributing ip. -/
def specCountryRuleCount (r₁ : String → Option GeoInfo) (since : String)
    (records : List LogRecord) (country : String) (rule : String) : Nat :=
  ((specCountryIps r₁ since records country).map
    (fun ip => dedupRuleOcc since records ip rule)).sum

/-- The rule frequency of a country as the claim words it: occurrences of the
rule across ALL flagged window records of the successfully resolved IPs of
that country, one count per record occurrence. -/
def claimCountryRuleCount (r₁ : String → Option GeoInfo) (since : String)
    (records : List LogRecord) (country : String) (rule : String) : Nat :=
  ((((windowFlagged since records).filter
      (fun r => resolveIp r₁ r.ip == some country)).map
    (fun r => r.matched_rules)).flatten).count rule

/-- Inserting stably is a permutation with consing. -/
theorem stableInsert_perm {α : Type} (lt : α → α → Bool) (x : α) (l : List α) :
    (stableInsert lt x l).Perm (x :: l) := by
  induction l with
  | nil => simp [stableInsert]
  | cons y ys ih =>
    simp only [stableInsert]
    by_cases h : lt x y
    · simp [h]
    · simp only [h, if_false, Bool.false_eq_true]
      exact (List.Perm.cons y ih).trans (List.Perm.swap x y ys)

/-- Folding stable insertions permutes the accumulator appended with the
input. -/
theorem stableSort_perm_aux {α : Type} (lt : α → α → Bool) (l acc : List α) :
    (l.foldl (fun acc x => stableInsert lt x acc) acc).Perm (acc ++ l) := by
  induction l generalizing acc with
  | nil => simp
  | cons x xs ih =>
    simp only [List.foldl_cons]
    refine (ih _).trans ?_
    refine (List.Perm.append_right xs (stableInsert_perm lt x acc)).trans ?_
    exact List.perm_middle.symm

/-- The stable sort permutes its input. -/
theorem stableSort_perm {α : Type} (lt : α → α → Bool) (l : List α) :
    (stableSort lt l).Perm l := by
  simpa [stableSort] using stableSort_perm_aux lt l []

/-- Membership is preserved by the stable sort. -/
theorem mem_stableSort {α : Type} {lt : α → α → Bool} {l : List α} {a : α} :
    a ∈ stableSort lt l ↔ a ∈ l :=
  (stableSort_perm lt l).mem_iff

/-- Membership after a stable insertion. -/
theorem mem_stableInsert {α : Type} {lt : α → α → Bool} {x a : α} {l : List α} :
    a ∈ stableInsert lt x l ↔ a = x ∨ a ∈ l := by
  rw [(stableInsert_perm lt x l).mem_iff, List.mem_cons]

/-- Stable insertion with a strict key comparison preserves descending
sortedness. -/
theorem stableInsert_pairwise_desc {α β : Type} [LinearOrder β] (key : α → β) (x : α)
    (l : List α) (h : l.Pairwise (fun a b => key b ≤ key a)) :
    (stableInsert (fun a b => decide (key b < key a)) x l).Pairwise
      (fun a b => key b ≤ key a) := by
  induction l with
  | nil => simp [stableInsert]
  | cons y ys ih =>
    rcases List.pairwise_cons.mp h with ⟨hy, hys⟩
    simp only [stableInsert]
    by_cases hxy : key y < key x
    · rw [if_pos (decide_eq_true hxy)]
      refine List.pairwise_cons.mpr ⟨?_, h⟩
      intro z hz
      rcases List.mem_cons.mp hz with rfl | hz
      · exact le_of_lt hxy
      · exact (hy z hz).trans (le_of_lt hxy)
    · rw [if_neg (by simp [hxy])]
      refine List.pairwise_cons.mpr ⟨?_, ih hys⟩
      intro z hz
      rcases mem_stableInsert.mp hz with rfl | hz
      · exact le_of_not_lt hxy
      · exact hy z hz

/-- Folding stable insertions preserves descending sortedness of the
accumulator. -/
theorem stableSort_pairwise_desc_aux {α β : Type} [LinearOrder β] (key : α → β)
    (l acc : List α) (hacc : acc.Pairwise (fun a b => key b ≤ key a)) :
    (l.foldl (fun acc x => stableInsert (fun a b => decide (key b < key a)) x acc)
      acc).Pairwise (fun a b => key b ≤ key a) := by
  induction l generalizing acc with
  | nil => exact hacc
  | cons x xs ih => exact ih _ (stableInsert_pairwise_desc key x acc hacc)

/-- sortByKeyDesc yields a list sorted descending by the key. -/
theorem sortByKeyDesc_pairwise {α β : Type} [LinearOrder β] (key : α → β) (l : List α) :
    (sortByKeyDesc key l).Pairwise (fun a b => key b ≤ key a) :=
  stableSort_pairwise_desc_aux key l [] (List.Pairwise.nil)

/-- sortByKeyDesc permutes its input. -/
theorem sortByKeyDesc_perm {α β : Type} [LinearOrder β] (key : α → β) (l : List α) :
    (sortByKeyDesc key l).Perm l :=
  stableSort_perm _ l

/-- sortByKeyAsc permutes its input. -/
theorem sortByKeyAsc_perm {α β : Type} [LinearOrder β] (key : α → β) (l : List α) :
    (sortByKeyAsc key l).Perm l :=
  stableSort_perm _ l

/-- Every element of a successful mapOrFail comes from a successful
application to an input element. -/
theorem mapOrFail_mem {α β : Type} {f : α → Option β} :
    ∀ {l : List α} {out : List β}, mapOrFail f l = some out →
      ∀ b ∈ out, ∃ a ∈ l, f a = some b := by
  intro l
  induction l with
  | nil =>
    intro out h b hb
    simp only [mapOrFail, Option.some.injEq] at h
    subst h
    simp at hb
  | cons x xs ih =>
    intro out h b hb
    simp only [mapOrFail] at h
    cases hfx : f x with
    | none => rw [hfx] at h; simp at h
    | some y =>
      rw [hfx] at h
      cases hrest : mapOrFail f xs with
      | none => rw [hrest] at h; simp at h
      | some ys =>
        rw [hrest] at h
        injection h with h
        subst h
        rcases List.mem_cons.mp hb with rfl | hb
        · exact ⟨x, List.mem_cons_self x xs, hfx⟩
        · rcases ih hrest b hb with ⟨a, ha, hfa⟩
          exact ⟨a, List.mem_cons_of_mem x ha, hfa⟩

/-- mapOrFail fails as soon as one element fails. -/
theorem mapOrFail_none {α β : Type} {f : α → Option β} {x : α} :
    ∀ {l : List α}, x ∈ l → f x = none → mapOrFail f l = none := by
  intro l
  induction l with
  | nil => intro h; simp at h
  | cons y ys ih =>
    intro hmem hfx
    rcases List.mem_cons.mp hmem with rfl | hmem
    · simp [mapOrFail, hfx]
    · simp only [mapOrFail]
      cases hfy : f y with
      | none => rfl
      | some z => rw [ih hmem hfx]; rfl

/-- The larger of two strings is one of them. -/
theorem strMax_choice (a b : String) : strMax a b = a ∨ strMax a b = b := by
  unfold strMax
  by_cases h : strLt a b = true
  · rw [if_pos h]; right; rfl
  · rw [if_neg h]; left; rfl

/-- A max fold over strings lands on one of the inputs. -/
theorem foldl_max_mem (rest : List String) :
    ∀ s : String, rest.foldl strMax s ∈ s :: rest := by
  induction rest with
  | nil => intro s; simp
  | cons x xs ih =>
    intro s
    simp only [List.foldl_cons]
    have h := ih (strMax s x)
    rcases List.mem_cons.mp h with h1 | h1
    · rw [h1]
      rcases strMax_choice s x with h2 | h2
      · rw [h2]; exact List.mem_cons_self s (x :: xs)
      · rw [h2]; exact List.mem_cons_of_mem s (List.mem_cons_self x xs)
    · exact List.mem_cons_of_mem s (List.mem_cons_of_mem x h1)

/-- The maximum of a nonempty string list is one of its elements. -/
theorem maxString_mem {l : List String} (h : l ≠ []) : maxString l ∈ l := by
  cases l with
  | nil => exact absurd rfl h
  | cons s rest => simpa [maxString] using foldl_max_mem rest s

/-- A successful association lookup is a membership. -/
theorem lookup_mem {β : Type} :
    ∀ {l : List (String × β)} {c : String} {s : β}, l.lookup c = some s → (c, s) ∈ l := by
  intro l
  induction l with
  | nil => intro c s h; simp at h
  | cons p ps ih =>
    intro c s h
    obtain ⟨k, v⟩ := p
    rw [List.lookup_cons] at h
    by_cases hck : c = k
    · subst hck
      simp only [beq_self_eq_true] at h
      injection h with h
      subst h
      exact List.mem_cons_self _ _
    · have hb : (c == k) = false := beq_eq_false_iff_ne.mpr hck
      rw [hb] at h
      exact List.mem_cons_of_mem _ (ih h)

/-- Under distinct keys, a member of an association list is found by lookup. -/
theorem mem_lookup_eq {β : Type} :
    ∀ {l : List (String × β)}, (l.map Prod.fst).Nodup →
      ∀ {p : String × β}, p ∈ l → l.lookup p.1 = some p.2 := by
  intro l
  induction l with
  | nil => intro _ p hp; simp at hp
  | cons q qs ih =>
    intro hnd p hp
    obtain ⟨k, v⟩ := q
    rw [List.map_cons, List.nodup_cons] at hnd
    rcases List.mem_cons.mp hp with rfl | hp
    · rw [List.lookup_cons]
      simp
    · have hp1 : p.1 ∈ qs.map Prod.fst := List.mem_map.mpr ⟨p, hp, rfl⟩
      have hne : (p.1 == k) = false :=
        beq_eq_false_iff_ne.mpr (fun heq => hnd.1 (heq ▸ hp1))
      rw [List.lookup_cons, hne]
      exact ih hnd.2 hp

/-- Count of a rule in a table with an explicit head binding. -/
theorem lookupCount_cons (k : String) (v : Nat) (ps : List (String × Nat)) (r : String) :
    lookupCount ((k, v) :: ps) r = if r = k then v else lookupCount ps r := by
  by_cases h : r = k
  · subst h; simp [lookupCount, List.lookup_cons]
  · simp [lookupCount, List.lookup_cons, beq_eq_false_iff_ne.mpr h, h]

/-- Count of a rule in the empty table. -/
theorem lookupCount_nil (r : String) : lookupCount [] r = 0 := rfl

/-- Bumping a rule raises exactly its own count by one. -/
theorem lookupCount_bumpRule (tbl : List (String × Nat)) (r0 r : String) :
    lookupCount (bumpRule tbl r0) r = lookupCount tbl r + (if r = r0 then 1 else 0) := by
  induction tbl with
  | nil =>
    simp only [bumpRule, lookupCount_cons, lookupCount_nil]
    by_cases h : r = r0 <;> simp [h]
  | cons p ps ih =>
    obtain ⟨k, v⟩ := p
    simp only [bumpRule]
    by_cases hk : k = r0
    · rw [if_pos hk]
      subst hk
      by_cases hr : r = k
      · subst hr; simp [lookupCount_cons]
      · simp [lookupCount_cons, hr]
    · rw [if_neg hk]
      by_cases hr : r = k
      · subst hr
        have : ¬ r = r0 := fun h => hk h  -- here r = k after subst
        simp [lookupCount_cons, this]
      · simp [lookupCount_cons, hr, ih]

/-- Folding bumps over a rule list adds the occurrence count of each rule. -/
theorem lookupCount_bumpList (lst : List String) :
    ∀ (tbl : List (String × Nat)) (r : String),
      lookupCount (lst.foldl bumpRule tbl) r = lookupCount tbl r + lst.count r := by
  induction lst with
  | nil => simp
  | cons x xs ih =>
    intro tbl r
    simp only [List.foldl_cons]
    rw [ih, lookupCount_bumpRule]
    by_cases h : r = x <;> simp [List.count_cons, h] <;> omega

/-- Folding bumps over a list of rule lists adds the occurrence count in the
flattening. -/
theorem lookupCount_bumpLists (L : List (List String)) :
    ∀ (tbl : List (String × Nat)) (r : String),
      lookupCount (L.foldl (fun tbl lst => lst.foldl bumpRule tbl) tbl) r =
        lookupCount tbl r + (L.flatten).count r := by
  induction L with
  | nil => simp
  | cons lst Ls ih =>
    intro tbl r
    simp only [List.foldl_cons, List.flatten_cons]
    rw [ih, lookupCount_bumpList, List.count_append]
    omega

/-- Bumping introduces no key other than the bumped rule. -/
theorem keys_bumpRule_sub (tbl : List (String × Nat)) (r0 x : String) :
    x ∈ (bumpRule tbl r0).map Prod.fst → x ∈ tbl.map Prod.fst ∨ x = r0 := by
  induction tbl with
  | nil => intro h; simp only [bumpRule, List.map_cons, List.map_nil] at h; simp at h; right; exact h
  | cons p ps ih =>
    obtain ⟨k, v⟩ := p
    intro h
    simp only [bumpRule] at h
    by_cases hk : k = r0
    · rw [if_pos hk] at h
      simp only [List.map_cons, List.mem_cons] at h
      rcases h with rfl | h
      · left; simp
      · left; simp [h]
    · rw [if_neg hk] at h
      simp only [List.map_cons, List.mem_cons] at h
      rcases h with rfl | h
      · left; simp
      · rcases ih h with h1 | h1
        · left; simp [h1]
        · right; exact h1

/-- Bumping preserves distinctness of the table keys. -/
theorem keys_bumpRule_nodup (tbl : List (String × Nat)) (r0 : String)
    (h : (tbl.map Prod.fst).Nodup) : ((bumpRule tbl r0).map Prod.fst).Nodup := by
  induction tbl with
  | nil => simp [bumpRule]
  | cons p ps ih =>
    obtain ⟨k, v⟩ := p
    rw [List.map_cons, List.nodup_cons] at h
    simp only [bumpRule]
    by_cases hk : k = r0
    · rw [if_pos hk]
      rw [List.map_cons, List.nodup_cons]
      exact ⟨h.1, h.2⟩
    · rw [if_neg hk]
      rw [List.map_cons, List.nodup_cons]
      refine ⟨?_, ih h.2⟩
      intro hmem
      rcases keys_bumpRule_sub ps r0 k hmem with h1 | h1
      · exact h.1 h1
      · exact hk h1

/-- Folding bumps over a rule list preserves distinctness of the keys. -/
theorem keys_bumpList_nodup (lst : List String) :
    ∀ tbl : List (String × Nat), (tbl.map Prod.fst).Nodup →
      ((lst.foldl bumpRule tbl).map Prod.fst).Nodup := by
  induction lst with
  | nil => intro tbl h; exact h
  | cons x xs ih =>
    intro tbl h
    exact ih _ (keys_bumpRule_nodup tbl x h)

/-- Folding bumps over a list of rule lists preserves distinctness of the
keys. -/
theorem keys_bumpLists_nodup (L : List (List String)) :
    ∀ tbl : List (String × Nat), (tbl.map Prod.fst).Nodup →
      ((L.foldl (fun tbl lst => lst.foldl bumpRule tbl) tbl).map Prod.fst).Nodup := by
  induction L with
  | nil => intro tbl h; exact h
  | cons lst Ls ih =>
    intro tbl h
    exact ih _ (keys_bumpList_nodup lst tbl h)

/-- Looking up the upserted key yields the new value. -/
theorem lookup_upsertStats_self :
    ∀ (acc : List (String × CountryStats)) (c : String) (s : CountryStats),
      (upsertStats acc c s).lookup c = some s := by
  intro acc
  induction acc with
  | nil => intro c s; simp [upsertStats, List.lookup_cons]
  | cons p ps ih =>
    intro c s
    obtain ⟨k, v⟩ := p
    simp only [upsertStats]
    by_cases h : k = c
    · rw [if_pos h, List.lookup_cons]
      simp
    · rw [if_neg h, List.lookup_cons]
      have hb : (c == k) = false := beq_eq_false_iff_ne.mpr (fun heq => h heq.symm)
      rw [hb]
      exact ih c s

/-- Looking up a different key is unaffected by an upsert. -/
theorem lookup_upsertStats_ne :
    ∀ (acc : List (String × CountryStats)) (c0 : String) (s : CountryStats) (c : String),
      c ≠ c0 → (upsertStats acc c0 s).lookup c = acc.lookup c := by
  intro acc
  induction acc with
  | nil =>
    intro c0 s c h
    simp [upsertStats, List.lookup_cons, beq_eq_false_iff_ne.mpr h]
  | cons p ps ih =>
    intro c0 s c h
    obtain ⟨k, v⟩ := p
    simp only [upsertStats]
    by_cases hk : k = c0
    · rw [if_pos hk, List.lookup_cons, List.lookup_cons]
      subst hk
      rw [beq_eq_false_iff_ne.mpr h]
    · rw [if_neg hk, List.lookup_cons, List.lookup_cons]
      cases hck : c == k with
      | true => rfl
      | false => exact ih c0 s c h

/-- An upsert introduces no key other than the upserted one. -/
theorem keys_upsertStats_sub :
    ∀ (acc : List (String × CountryStats)) (c : String) (s : CountryStats) (x : String),
      x ∈ (upsertStats acc c s).map Prod.fst → x ∈ acc.map Prod.fst ∨ x = c := by
  intro acc
  induction acc with
  | nil =>
    intro c s x h
    simp only [upsertStats, List.map_cons, List.map_nil, List.mem_cons] at h
    rcases h with rfl | h
    · right; rfl
    · simp at h
  | cons p ps ih =>
    intro c s x h
    obtain ⟨k, v⟩ := p
    simp only [upsertStats] at h
    by_cases hk : k = c
    · rw [if_pos hk] at h
      simp only [List.map_cons, List.mem_cons] at h
      rcases h with rfl | h
      · right; rfl
      · left; simp [h]
    · rw [if_neg hk] at h
      simp only [List.map_cons, List.mem_cons] at h
      rcases h with rfl | h
      · left; simp
      · rcases ih c s x h with h1 | h1
        · left; simp [h1]
        · right; exact h1

/-- An upsert preserves distinctness of the keys. -/
theorem keys_upsertStats_nodup :
    ∀ (acc : List (String × CountryStats)) (c : String) (s : CountryStats),
      (acc.map Prod.fst).Nodup → ((upsertStats acc c s).map Prod.fst).Nodup := by
  intro acc
  induction acc with
  | nil => intro c s _; simp [upsertStats]
  | cons p ps ih =>
    intro c s h
    obtain ⟨k, v⟩ := p
    rw [List.map_cons, List.nodup_cons] at h
    simp only [upsertStats]
    by_cases hk : k = c
    · rw [if_pos hk, List.map_cons, List.nodup_cons]
      exact ⟨hk ▸ h.1, h.2⟩
    · rw [if_neg hk, List.map_cons, List.nodup_cons]
      refine ⟨?_, ih c s h.2⟩
      intro hmem
      rcases keys_upsertStats_sub ps c s k hmem with h1 | h1
      · exact h.1 h1
      · exact hk h1

/-- Processing one group preserves distinctness of the country keys. -/
theorem keys_processGroup_nodup (r₁ : String → Option GeoInfo) (pt : String → Option Int)
    (acc : List (String × CountryStats)) (g : IpGroup)
    (h : (acc.map Prod.fst).Nodup) :
    ((processGroup r₁ pt acc g).map Prod.fst).Nodup := by
  unfold processGroup
  cases r₁ g.ip with
  | none => exact h
  | some geo => exact keys_upsertStats_nodup acc _ _ h

/-- The countries dict always has distinct country keys. -/
theorem countriesAcc_keys_nodup (r₁ : String → Option GeoInfo) (pt : String → Option Int)
    (gs : List IpGroup) : ((countriesAcc r₁ pt gs).map Prod.fst).Nodup := by
  suffices h : ∀ acc : List (String × CountryStats), (acc.map Prod.fst).Nodup →
      ((gs.foldl (processGroup r₁ pt) acc).map Prod.fst).Nodup by
    exact h [] (by simp)
  induction gs with
  | nil => intro acc h; exact h
  | cons g tl ih =>
    intro acc h
    exact ih _ (keys_processGroup_nodup r₁ pt acc g h)

/-- The accumulator a country ends with is the fold of its own groups, in
order, over the defaultdict initializer it started from. -/
theorem lookupStats_foldl (r₁ : String → Option GeoInfo) (pt : String → Option Int) :
    ∀ (gs : List IpGroup) (acc : List (String × CountryStats)) (c : String),
      lookupStats (gs.foldl (processGroup r₁ pt) acc) c =
        (gs.filter (fun g => resolveIp r₁ g.ip == some c)).foldl (applyGroup pt)
          (lookupStats acc c) := by
  intro gs
  induction gs with
  | nil => intro acc c; simp
  | cons g tl ih =>
    intro acc c
    simp only [List.foldl_cons]
    cases hr : r₁ g.ip with
    | none =>
      have hfilt : List.filter (fun g => resolveIp r₁ g.ip == some c) (g :: tl) =
          List.filter (fun g => resolveIp r₁ g.ip == some c) tl := by
        rw [List.filter_cons]
        simp [resolveIp, hr]
      rw [hfilt]
      have hpg : processGroup r₁ pt acc g = acc := by
        unfold processGroup; rw [hr]
      rw [hpg]
      exact ih acc c
    | some geo =>
      have hpg : processGroup r₁ pt acc g =
          upsertStats acc (countryOf geo) (applyGroup pt (lookupStats acc (countryOf geo)) g) := by
        unfold processGroup; rw [hr]
      by_cases hc : countryOf geo = c
      · subst hc
        have hfilt : List.filter (fun g => resolveIp r₁ g.ip == some (countryOf geo)) (g :: tl) =
            g :: List.filter (fun g => resolveIp r₁ g.ip == some (countryOf geo)) tl := by
          rw [List.filter_cons]
          simp [resolveIp, hr]
        rw [hfilt, List.foldl_cons, hpg, ih]
        have : lookupStats
            (upsertStats acc (countryOf geo)
              (applyGroup pt (lookupStats acc (countryOf geo)) g)) (countryOf geo) =
            applyGroup pt (lookupStats acc (countryOf geo)) g := by
          unfold lookupStats
          rw [lookup_upsertStats_self]
        rw [this]
      · have hfilt : List.filter (fun g => resolveIp r₁ g.ip == some c) (g :: tl) =
            List.filter (fun g => resolveIp r₁ g.ip == some c) tl := by
          rw [List.filter_cons]
          simp [resolveIp, hr]
          exact hc
        rw [hfilt, hpg, ih]
        have : lookupStats
            (upsertStats acc (countryOf geo)
              (applyGroup pt (lookupStats acc (countryOf geo)) g)) c =
            lookupStats acc c := by
          unfold lookupStats
          rw [lookup_upsertStats_ne _ _ _ _ (fun h => hc h.symm)]
        rw [this]

/-- Every binding of the countries dict is the fold of the groups resolving
to that country over the zero accumulator. -/
theorem mem_countriesAcc_eq (r₁ : String → Option GeoInfo) (pt : String → Option Int)
    (gs : List IpGroup) (c : String) (stats : CountryStats)
    (h : (c, stats) ∈ countriesAcc r₁ pt gs) :
    stats = (gs.filter (fun g => resolveIp r₁ g.ip == some c)).foldl (applyGroup pt)
      ⟨0, [], none, []⟩ := by
  have hnd := countriesAcc_keys_nodup r₁ pt gs
  have hl := mem_lookup_eq hnd h
  have hs : lookupStats (countriesAcc r₁ pt gs) c = stats := by
    unfold lookupStats
    rw [hl]
  rw [← hs]
  have := lookupStats_foldl r₁ pt gs [] c
  rw [countriesAcc]
  rw [this]
  rfl

/-- When the last-attack parse succeeds, the rule table after one group is the
bump fold of its rule lists. -/
theorem applyGroup_common_rules (pt : String → Option Int) (s : CountryStats) (g : IpGroup)
    (h : (pt g.last_attack).isSome) :
    (applyGroup pt s g).common_rules =
      g.matched_rules.foldl (fun tbl lst => lst.foldl bumpRule tbl) s.common_rules := by
  unfold applyGroup
  cases hp : pt g.last_attack with
  | none => rw [hp] at h; simp at h
  | some t => rfl

/-- The rule table after one group keeps distinct keys. -/
theorem applyGroup_rules_nodup (pt : String → Option Int) (s : CountryStats) (g : IpGroup)
    (h : (s.common_rules.map Prod.fst).Nodup) :
    (((applyGroup pt s g).common_rules).map Prod.fst).Nodup := by
  unfold applyGroup
  cases hp : pt g.last_attack with
  | none => exact h
  | some t => exact keys_bumpLists_nodup _ _ h

/-- Folding groups into a country accumulator adds, per rule, the occurrence
count in the flattening of each group's distinct rule lists. -/
theorem foldl_applyGroup_rules (pt : String → Option Int) (hs : List IpGroup) :
    ∀ s : CountryStats, (∀ g ∈ hs, (pt g.last_attack).isSome) → ∀ r : String,
      lookupCount ((hs.foldl (applyGroup pt) s).common_rules) r =
        lookupCount s.common_rules r +
          (hs.map (fun g => (g.matched_rules.flatten).count r)).sum := by
  induction hs with
  | nil => simp
  | cons g tl ih =>
    intro s hall r
    simp only [List.foldl_cons, List.map_cons, List.sum_cons]
    rw [ih _ (fun g hg => hall g (List.mem_cons_of_mem _ hg)) r]
    rw [applyGroup_common_rules pt s g (hall g (List.mem_cons_self _ _)), lookupCount_bumpLists]
    omega

/-- Folding groups into a country accumulator keeps the rule keys distinct. -/
theorem foldl_applyGroup_rules_nodup (pt : String → Option Int) (hs : List IpGroup) :
    ∀ s : CountryStats, (s.common_rules.map Prod.fst).Nodup →
      (((hs.foldl (applyGroup pt) s).common_rules).map Prod.fst).Nodup := by
  induction hs with
  | nil => intro s h; exact h
  | cons g tl ih =>
    intro s h
    exact ih _ (applyGroup_rules_nodup pt s g h)

/-- The groups attributed to a country are exactly the contributing distinct
IPs of that country, each grouped. -/
theorem groupAttacksByIp_filter (r₁ : String → Option GeoInfo) (since : String)
    (records : List LogRecord) (c : String) :
    (groupAttacksByIp since records).filter (fun g => resolveIp r₁ g.ip == some c) =
      (specCountryIps r₁ since records c).map (mkIpGroup (windowFlagged since records)) := by
  unfold groupAttacksByIp specCountryIps
  rw [List.filter_map]
  rfl

/-- The flattening count of a grouped ip equals its deduplicated rule
occurrence count. -/
theorem mkIpGroup_flatten_count (since : String) (records : List LogRecord) (ip rule : String) :
    ((mkIpGroup (windowFlagged since records) ip).matched_rules.flatten).count rule =
      dedupRuleOcc since records ip rule := rfl

/-- Every group produced by the pipeline has a last-attack timestamp taken
from some stored record. -/
theorem groups_pt_isSome (pt : String → Option Int) (since : String)
    (records : List LogRecord) (H : ∀ r ∈ records, (pt r.timestamp).isSome) :
    ∀ g ∈ groupAttacksByIp since records, (pt g.last_attack).isSome := by
  intro g hg
  unfold groupAttacksByIp at hg
  rcases List.mem_map.mp hg with ⟨ip, hip, rfl⟩
  have hex : ∃ r ∈ windowFlagged since records, r.ip = ip := by
    rcases List.mem_map.mp (List.mem_dedup.mp hip) with ⟨r, hr, rfl⟩
    exact ⟨r, hr, rfl⟩
  rcases hex with ⟨r0, hr0, hip0⟩
  have hgrp : r0 ∈ (windowFlagged since records).filter (fun r => r.ip == ip) := by
    rw [List.mem_filter]
    exact ⟨hr0, by simp [hip0]⟩
  have hne : (((windowFlagged since records).filter (fun r => r.ip == ip)).map
      (fun r => r.timestamp)) ≠ [] := by
    simp only [ne_eq, List.map_eq_nil_iff]
    exact List.ne_nil_of_mem hgrp
  have hmax := maxString_mem hne
  rcases List.mem_map.mp hmax with ⟨r1, hr1, heq⟩
  have hr1rec : r1 ∈ records := by
    have hw := (List.mem_filter.mp hr1).1
    exact (List.mem_filter.mp hw).1
  have hsome := H r1 hr1rec
  have hla : (mkIpGroup (windowFlagged since records) ip).last_attack =
      maxString (((windowFlagged since records).filter (fun r => r.ip == ip)).map
        (fun r => r.timestamp)) := rfl
  rw [hla, ← heq]
  exact hsome

/-- Membership in a Mongo set union. -/
theorem mem_setUnion {a : String} {x y : List String} :
    a ∈ setUnion x y ↔ a ∈ x ∨ a ∈ y := by
  simp [setUnion]

/-- Membership after folding set unions. -/
theorem mem_foldl_setUnion (L : List (List String)) :
    ∀ (acc : List String) (a : String),
      a ∈ L.foldl setUnion acc ↔ a ∈ acc ∨ ∃ l ∈ L, a ∈ l := by
  induction L with
  | nil => intro acc a; simp
  | cons x xs ih =>
    intro acc a
    simp only [List.foldl_cons]
    rw [ih]
    rw [mem_setUnion]
    constructor
    · rintro ((h | h) | ⟨l, hl, hal⟩)
      · exact Or.inl h
      · exact Or.inr ⟨x, List.mem_cons_self _ _, h⟩
      · exact Or.inr ⟨l, List.mem_cons_of_mem _ hl, hal⟩
    · rintro (h | ⟨l, hl, hal⟩)
      · exact Or.inl (Or.inl h)
      · rcases List.mem_cons.mp hl with rfl | hl
        · exact Or.inl (Or.inr hal)
        · exact Or.inr ⟨l, hl, hal⟩

/-- Folding set unions of a nonempty list of lists yields a deduplicated
result; with a Nodup accumulator the result is always Nodup. -/
theorem foldl_setUnion_nodup (L : List (List String)) :
    ∀ acc : List String, acc.Nodup → (L.foldl setUnion acc).Nodup := by
  induction L with
  | nil => intro acc h; exact h
  | cons x xs ih =>
    intro acc _
    exact ih (setUnion acc x) (List.nodup_dedup _)

/-- In a pairwise-related list, every taken element relates to every dropped
element. -/
theorem pairwise_take_drop {α : Type} {R : α → α → Prop} {l : List α}
    (h : l.Pairwise R) (n : Nat) :
    ∀ a ∈ l.take n, ∀ b ∈ l.drop n, R a b := by
  intro a ha b hb
  rw [← List.take_append_drop n l, List.pairwise_append] at h
  exact h.2.2 a ha b hb

/-- A prefix of a pairwise-related list is pairwise related. -/
theorem pairwise_take {α : Type} {R : α → α → Prop} {l : List α}
    (h : l.Pairwise R) (n : Nat) : (l.take n).Pairwise R := by
  rw [← List.take_append_drop n l, List.pairwise_append] at h
  exact h.1

/-- C1: for every stored prevention-mode state, a successful POST to
/api/waf/prevention with a body whose enabled key holds the boolean b,
followed immediately by GET /api/waf/prevention, returns enabled = b, and the
POST returns the success response carrying b - regardless of the outcome of
the forwarding call to the remote enforcement service. -/
theorem prevention_set_then_get (config : Option Bool) (data : List (String × Json))
    (b : Bool) (forwardOk : Bool) (h : lookupKey data "enabled" = some (Json.bool b)) :
    (set_prevention_mode config (some data) forwardOk).2 =
        SetPreventionResult.success ⟨b, "success"⟩ ∧
      get_prevention_mode (set_prevention_mode config (some data) forwardOk).1 = b := by
  simp [set_prevention_mode, get_prevention_mode, pyBool, h]

/-- Witness for C1 at a concrete state and body, with a failing forwarding
call. -/
theorem prevention_set_then_get_witness :
    (set_prevention_mode none (some [("enabled", Json.bool true)]) false).2 =
        SetPreventionResult.success ⟨true, "success"⟩ ∧
      get_prevention_mode
        (set_prevention_mode none (some [("enabled", Json.bool true)]) false).1 = true :=
  prevention_set_then_get none [("enabled", Json.bool true)] true false rfl

/-- C10: for every POST /api/waf/prevention body holding an enabled key, the
persisted and returned flag is the Python truthiness coercion of the value:
the JSON string "false" and any non-empty string yield true, while null, 0,
the empty string and false yield false. -/
theorem prevention_set_truthiness (config : Option Bool) (data : List (String × Json))
    (v : Json) (forwardOk : Bool) (h : lookupKey data "enabled" = some v) :
    set_prevention_mode config (some data) forwardOk =
        (some (pyBool v), .success ⟨pyBool v, "success"⟩) ∧
      pyBool (Json.str "false") = true ∧
      (∀ s : String, s ≠ "" → pyBool (Json.str s) = true) ∧
      pyBool Json.null = false ∧
      pyBool (Json.num 0) = false ∧
      pyBool (Json.str "") = false ∧
      pyBool (Json.bool false) = false := by
  refine ⟨?_, by decide, ?_, rfl, by decide, by decide, rfl⟩
  · simp [set_prevention_mode, h]
  · intro s hs
    simp [pyBool, hs]

/-- Witness for C10: the string "false" is persisted and returned as true. -/
theorem prevention_set_truthiness_witness :
    set_prevention_mode none (some [("enabled", Json.str "false")]) true =
      (some true, .success ⟨true, "success"⟩) := by
  have h := (prevention_set_truthiness none [("enabled", Json.str "false")]
    (Json.str "false") true rfl).1
  have e : pyBool (Json.str "false") = true := by decide
  rw [e] at h
  exact h

/-- C6: with_retry at maxRetries 3 and baseDelay one half returns the result
of the first successful attempt, sleeping baseDelay times 2 to the power
(attempt - 1) before retry attempt number attempt, and after three failed
attempts re-raises the last failure instead of returning an empty result. -/
theorem with_retry_spec {E A : Type} (func : Nat → Except E A) (a : A) (e0 e1 e2 : E) :
    (func 0 = .ok a → with_retry func 3 (1 / 2) = ([], some (.ok a))) ∧
    (func 0 = .error e0 → func 1 = .ok a →
      with_retry func 3 (1 / 2) = ([(1 / 2) * 2 ^ (1 - 1)], some (.ok a))) ∧
    (func 0 = .error e0 → func 1 = .error e1 → func 2 = .ok a →
      with_retry func 3 (1 / 2) =
        ([(1 / 2) * 2 ^ (1 - 1), (1 / 2) * 2 ^ (2 - 1)], some (.ok a))) ∧
    (func 0 = .error e0 → func 1 = .error e1 → func 2 = .error e2 →
      with_retry func 3 (1 / 2) =
        ([(1 / 2) * 2 ^ (1 - 1), (1 / 2) * 2 ^ (2 - 1)], some (.error e2))) := by
  refine ⟨?_, ?_, ?_, ?_⟩
  · intro h0
    simp [with_retry, retryLoop, h0]
  · intro h0 h1
    simp [with_retry, retryLoop, h0, h1]
  · intro h0 h1 h2
    simp [with_retry, retryLoop, h0, h1, h2]
  · intro h0 h1 h2
    simp [with_retry, retryLoop, h0, h1, h2]

/-- Witness for C6: one failure then a success yields the result after a
single backoff sleep. -/
theorem with_retry_spec_witness :
    with_retry (fun n => match n with | 0 => Except.error "boom" | _ => Except.ok 7) 3 (1 / 2) =
      ([(1 / 2 : Rat) * 2 ^ (1 - 1)], some (Except.ok 7)) :=
  (with_retry_spec (fun n => match n with | 0 => Except.error "boom" | _ => Except.ok 7)
    7 "boom" "x" "y").2.1 rfl rfl

/-- C2 evidence (code bug): a present but unparseable since value DOES filter
the log query.  The try block of fetch_logs never parses the cursor, so the
raw string is installed as a timestamp lower bound and compared
lexicographically; here since = "invalid" excludes the stored record, while
the claim (and the comment in the code) require the unfiltered behavior of an
omitted since, which returns it. -/
theorem get_logs_unparseable_since_filters :
    fetch_logs (some "invalid")
        [⟨1, "2024-01-01T00:00:00", "1.2.3.4", false, [], []⟩] = [] ∧
      fetch_logs none [⟨1, "2024-01-01T00:00:00", "1.2.3.4", false, [], []⟩] =
        [⟨"2024-01-01T00:00:00", "1.2.3.4", false, [], []⟩] := by
  constructor
  · decide
  · decide

/-- Lexicographic comparison is irreflexive. -/
theorem strLtB_irrefl : ∀ l : List Char, strLtB l l = false := by
  intro l
  induction l with
  | nil => rfl
  | cons a as ih => simp [strLtB, ih]

/-- Lexicographic comparison is transitive. -/
theorem strLtB_trans : ∀ a b c : List Char,
    strLtB a b = true → strLtB b c = true → strLtB a c = true := by
  intro a
  induction a with
  | nil =>
    intro b c hab hbc
    cases b with
    | nil => simp [strLtB] at hab
    | cons y ys =>
      cases c with
      | nil => simp [strLtB] at hbc
      | cons z zs => rfl
  | cons x xs ih =>
    intro b c hab hbc
    cases b with
    | nil => simp [strLtB] at hab
    | cons y ys =>
      cases c with
      | nil => simp [strLtB] at hbc
      | cons z zs =>
        simp only [strLtB] at hab hbc ⊢
        by_cases h1 : x.toNat < y.toNat
        · by_cases h2 : y.toNat < z.toNat
          · have hx : x.toNat < z.toNat := Nat.lt_trans h1 h2
            simp [hx]
          · rw [if_neg h2] at hbc
            by_cases h3 : z.toNat < y.toNat
            · rw [if_pos h3] at hbc
              exact absurd hbc (by simp)
            · have hx : x.toNat < z.toNat := by omega
              simp [hx]
        · rw [if_neg h1] at hab
          by_cases h1b : y.toNat < x.toNat
          · rw [if_pos h1b] at hab
            exact absurd hab (by simp)
          · rw [if_neg h1b] at hab
            by_cases h2 : y.toNat < z.toNat
            · have hx : x.toNat < z.toNat := by omega
              simp [hx]
            · rw [if_neg h2] at hbc
              by_cases h3 : z.toNat < y.toNat
              · rw [if_pos h3] at hbc
                exact absurd hbc (by simp)
              · rw [if_neg h3] at hbc
                have hxz1 : ¬ x.toNat < z.toNat := by omega
                have hxz2 : ¬ z.toNat < x.toNat := by omega
                rw [if_neg hxz1, if_neg hxz2]
                exact ih ys zs hab hbc

/-- Lexicographic comparison is asymmetric. -/
theorem strLtB_asymm (a b : List Char) (h : strLtB a b = true) : strLtB b a = false := by
  cases hh : strLtB b a with
  | false => rfl
  | true =>
    have ht := strLtB_trans a b a h hh
    rw [strLtB_irrefl] at ht
    simp at ht

/-- Stable insertion with an asymmetric, cross-transitive comparison
preserves sortedness. -/
theorem stableInsert_pairwise_of {α : Type} (lt : α → α → Bool)
    (h1 : ∀ a b, lt a b = true → lt b a = false)
    (h2 : ∀ x y z, lt x y = true → lt z y = false → lt z x = false)
    (x : α) (l : List α) (h : l.Pairwise (fun a b => lt b a = false)) :
    (stableInsert lt x l).Pairwise (fun a b => lt b a = false) := by
  induction l with
  | nil => simp [stableInsert]
  | cons y ys ih =>
    rcases List.pairwise_cons.mp h with ⟨hy, hys⟩
    simp only [stableInsert]
    by_cases hxy : lt x y = true
    · rw [if_pos hxy]
      refine List.pairwise_cons.mpr ⟨?_, h⟩
      intro z hz
      rcases List.mem_cons.mp hz with rfl | hz
      · exact h1 _ _ hxy
      · exact h2 _ _ _ hxy (hy z hz)
    · have hxyf : lt x y = false := by
        cases hh : lt x y with
        | false => rfl
        | true => exact absurd hh hxy
      rw [if_neg hxy]
      refine List.pairwise_cons.mpr ⟨?_, ih hys⟩
      intro z hz
      rcases mem_stableInsert.mp hz with rfl | hz
      · exact hxyf
      · exact hy z hz

/-- The stable sort with an asymmetric, cross-transitive comparison is
sorted. -/
theorem stableSort_pairwise_of {α : Type} (lt : α → α → Bool)
    (h1 : ∀ a b, lt a b = true → lt b a = false)
    (h2 : ∀ x y z, lt x y = true → lt z y = false → lt z x = false)
    (l : List α) : (stableSort lt l).Pairwise (fun a b => lt b a = false) := by
  suffices hgen : ∀ acc : List α, acc.Pairwise (fun a b => lt b a = false) →
      (l.foldl (fun acc x => stableInsert lt x acc) acc).Pairwise
        (fun a b => lt b a = false) by
    exact hgen [] List.Pairwise.nil
  induction l with
  | nil => intro acc hacc; exact hacc
  | cons x xs ih =>
    intro acc hacc
    exact ih _ (stableInsert_pairwise_of lt h1 h2 x acc hacc)

/-- Sorting descending by a string key yields a descending list. -/
theorem sortByTsDesc_pairwise {α : Type} (ts : α → String) (l : List α) :
    (sortByTsDesc ts l).Pairwise (fun a b => strLt (ts a) (ts b) = false) := by
  refine stableSort_pairwise_of _ ?_ ?_ l
  · intro a b hab
    exact strLtB_asymm _ _ hab
  · intro x y z hxy hzy
    cases hh : strLt (ts x) (ts z) with
    | false => rfl
    | true =>
      have ht := strLtB_trans _ _ _ hxy hh
      have hzy2 : strLtB (ts y).data (ts z).data = false := hzy
      rw [hzy2] at ht
      simp at ht

/-- Permutation property of the descending string-key sort. -/
theorem sortByTsDesc_perm {α : Type} (ts : α → String) (l : List α) :
    (sortByTsDesc ts l).Perm l :=
  stableSort_perm _ l

/-- Permutation property of the ascending string-key sort. -/
theorem sortByTsAsc_perm {α : Type} (ts : α → String) (l : List α) :
    (sortByTsAsc ts l).Perm l :=
  stableSort_perm _ l

/-- C5 counterexample: the claim says latest_activity is restricted to
timestamp and detection verdict with no internal identifiers; but the
inclusion projection of get_status keeps the store _id by default, so two
stores that differ only in the internal identifier of a record yield
different status responses. -/
theorem get_status_exposes_internal_id :
    get_status none [⟨1, "2024-01-01T00:00:00", "1.2.3.4", false, [], []⟩] ≠
      get_status none [⟨2, "2024-01-01T00:00:00", "1.2.3.4", false, [], []⟩] := by
  decide

/-- C5 amended: GET /api/status returns the total request count, the flagged
count, the prevention flag (false when the config record is absent, the
stored value otherwise), and the 10 most recent records projected to
timestamp, detection verdict and the internal record identifier (kept by the
store default of an inclusion projection): latest_activity has
min 10 (record count) entries, each drawn verbatim from a stored record, in
descending timestamp order, and the stored records split (as a multiset)
into the listed ones and a remainder every element of which has a timestamp
at most every listed timestamp - the listed records are the most recent. -/
theorem get_status_spec (config : Option Bool) (logs : List LogRecord) :
    (get_status config logs).total_requests = logs.length ∧
    (get_status config logs).attacks_detected =
      (logs.filter (fun r => r.injection_detected)).length ∧
    (config = none → (get_status config logs).prevention_mode = false) ∧
    (∀ b, config = some b → (get_status config logs).prevention_mode = b) ∧
    (get_status config logs).latest_activity.length = min 10 logs.length ∧
    (∀ e ∈ (get_status config logs).latest_activity, ∃ r ∈ logs,
      e.oid = r.oid ∧ e.timestamp = r.timestamp ∧
        e.injection_detected = r.injection_detected) ∧
    (get_status config logs).latest_activity.Pairwise
      (fun a b => strLt a.timestamp b.timestamp = false) ∧
    (∃ taken rest : List LogRecord,
      logs.Perm (taken ++ rest) ∧
      (get_status config logs).latest_activity =
        taken.map (fun r => ⟨r.oid, r.timestamp, r.injection_detected⟩) ∧
      ∀ r ∈ taken, ∀ s ∈ rest, strLt r.timestamp s.timestamp = false) := by
  refine ⟨rfl, rfl, ?_, ?_, ?_, ?_, ?_, ?_⟩
  · intro h; subst h; rfl
  · intro b h; subst h; rfl
  · simp only [get_status]
    rw [List.length_map, List.length_take, (sortByTsDesc_perm _ logs).length_eq]
  · intro e he
    simp only [get_status] at he
    rcases List.mem_map.mp he with ⟨r, hr, rfl⟩
    have hr2 : r ∈ sortByTsDesc (fun r => r.timestamp) logs := List.take_subset _ _ hr
    exact ⟨r, (sortByTsDesc_perm _ logs).mem_iff.mp hr2, rfl, rfl, rfl⟩
  · simp only [get_status]
    rw [List.pairwise_map]
    exact pairwise_take (sortByTsDesc_pairwise _ logs) 10
  · refine ⟨(sortByTsDesc (fun r : LogRecord => r.timestamp) logs).take 10,
      (sortByTsDesc (fun r : LogRecord => r.timestamp) logs).drop 10, ?_, rfl, ?_⟩
    · rw [List.take_append_drop]
      exact (sortByTsDesc_perm _ logs).symm
    · exact pairwise_take_drop
        (sortByTsDesc_pairwise (fun r : LogRecord => r.timestamp) logs) 10

/-- Witness for C5 amended at a concrete store. -/
theorem get_status_spec_witness :
    (get_status none [⟨5, "t1", "ip1", true, ["sqli"], []⟩]).prevention_mode = false ∧
    (get_status none [⟨5, "t1", "ip1", true, ["sqli"], []⟩]).total_requests =
      [(⟨5, "t1", "ip1", true, ["sqli"], []⟩ : LogRecord)].length :=
  ⟨(get_status_spec none [⟨5, "t1", "ip1", true, ["sqli"], []⟩]).2.2.1 rfl,
   (get_status_spec none [⟨5, "t1", "ip1", true, ["sqli"], []⟩]).1⟩

/-- C7: every entry of the anomalous-IP detector satisfies
threat_level = 100 * anomalous_requests / total_requests,
0 < threat_level <= 100, anomalous_requests <= total_requests, and only IPs
with a positive anomalous count are included. -/
theorem anomalous_ips_entry_bounds (records : List LogRecord) (e : IPThreatEntry)
    (he : e ∈ get_anomalous_ips records) :
    e.threat_level = 100 * (e.anomalous_requests : Rat) / (e.total_requests : Rat) ∧
    0 < e.threat_level ∧ e.threat_level ≤ 100 ∧
    e.anomalous_requests ≤ e.total_requests ∧ 0 < e.anomalous_requests := by
  unfold get_anomalous_ips at he
  have he2 := List.take_subset _ _ he
  have he3 := (sortByKeyDesc_perm (fun e : IPThreatEntry => e.threat_level) _).mem_iff.mp he2
  rw [List.mem_filter] at he3
  obtain ⟨he4, hanom⟩ := he3
  rcases List.mem_map.mp he4 with ⟨ip, hip, rfl⟩
  have hexists : ∃ r ∈ records, r.ip = ip := by
    rcases List.mem_map.mp (List.mem_dedup.mp hip) with ⟨r, hr, rfl⟩
    exact ⟨r, hr, rfl⟩
  rcases hexists with ⟨r0, hr0, hip0⟩
  have hgrp_mem : r0 ∈ records.filter (fun r => r.ip == ip) :=
    List.mem_filter.mpr ⟨hr0, by simp [hip0]⟩
  have htot_pos : 0 < (records.filter (fun r => r.ip == ip)).length :=
    List.length_pos.mpr (List.ne_nil_of_mem hgrp_mem)
  have hA : 0 < (groupEntry records ip).anomalous_requests := of_decide_eq_true hanom
  have hAT : (groupEntry records ip).anomalous_requests ≤
      (groupEntry records ip).total_requests := List.length_filter_le _ _
  have htheq : (groupEntry records ip).threat_level =
      ((groupEntry records ip).anomalous_requests : Rat) /
        ((groupEntry records ip).total_requests : Rat) * 100 := rfl
  have hT0 : (0 : Rat) < ((groupEntry records ip).total_requests : Rat) := by
    exact_mod_cast htot_pos
  have hA0 : (0 : Rat) < ((groupEntry records ip).anomalous_requests : Rat) := by
    exact_mod_cast hA
  refine ⟨?_, ?_, ?_, hAT, hA⟩
  · rw [htheq]; ring
  · rw [htheq]
    have hdiv : (0 : Rat) < ((groupEntry records ip).anomalous_requests : Rat) /
        ((groupEntry records ip).total_requests : Rat) := div_pos hA0 hT0
    have h100 : (0 : Rat) < 100 := by norm_num
    exact mul_pos hdiv h100
  · rw [htheq]
    have hle1 : ((groupEntry records ip).anomalous_requests : Rat) /
        ((groupEntry records ip).total_requests : Rat) ≤ 1 := by
      rw [div_le_one hT0]
      exact_mod_cast hAT
    have := mul_le_mul_of_nonneg_right hle1 (by norm_num : (0 : Rat) ≤ 100)
    simpa using this

/-- Witness for C7 at a concrete store. -/
theorem anomalous_ips_entry_bounds_witness :
    (0 : Rat) <
        (groupEntry [⟨1, "t1", "9.9.9.9", true, ["sqli"], []⟩] "9.9.9.9").threat_level ∧
      (groupEntry [⟨1, "t1", "9.9.9.9", true, ["sqli"], []⟩] "9.9.9.9").anomalous_requests ≤
        (groupEntry [⟨1, "t1", "9.9.9.9", true, ["sqli"], []⟩] "9.9.9.9").total_requests := by
  have h := anomalous_ips_entry_bounds [⟨1, "t1", "9.9.9.9", true, ["sqli"], []⟩]
    (groupEntry [⟨1, "t1", "9.9.9.9", true, ["sqli"], []⟩] "9.9.9.9")
    (by
      rw [show get_anomalous_ips [⟨1, "t1", "9.9.9.9", true, ["sqli"], []⟩] =
        [groupEntry [⟨1, "t1", "9.9.9.9", true, ["sqli"], []⟩] "9.9.9.9"] from rfl]
      exact List.mem_singleton.mpr rfl)
  exact ⟨h.2.1, h.2.2.2.1⟩

/-- C9: the matched_rules of every anomalous-IP entry are exactly the
deduplicated union of matched_rules over the flagged records of that IP; a
rule occurring only in non-flagged records never appears. -/
theorem anomalous_ips_matched_rules (records : List LogRecord) (e : IPThreatEntry)
    (he : e ∈ get_anomalous_ips records) :
    (∀ x : String, x ∈ e.matched_rules ↔
      ∃ r ∈ records, r.ip = e.ip ∧ r.injection_detected = true ∧ x ∈ r.matched_rules) ∧
    e.matched_rules.Nodup := by
  unfold get_anomalous_ips at he
  have he2 := List.take_subset _ _ he
  have he3 := (sortByKeyDesc_perm (fun e : IPThreatEntry => e.threat_level) _).mem_iff.mp he2
  rw [List.mem_filter] at he3
  obtain ⟨he4, _⟩ := he3
  rcases List.mem_map.mp he4 with ⟨ip, hip, rfl⟩
  have hrules : (groupEntry records ip).matched_rules =
      (((records.filter (fun r => r.ip == ip)).map
        (fun r => if r.injection_detected then r.matched_rules else [])).dedup).foldl
          setUnion [] := rfl
  constructor
  · intro x
    rw [hrules, mem_foldl_setUnion]
    constructor
    · rintro (hfalse | ⟨l, hl, hxl⟩)
      · simp at hfalse
      · rcases List.mem_map.mp (List.mem_dedup.mp hl) with ⟨r, hr, rfl⟩
        by_cases hd : r.injection_detected
        · refine ⟨r, (List.mem_filter.mp hr).1, ?_, hd, ?_⟩
          · have hb := (List.mem_filter.mp hr).2
            exact eq_of_beq hb
          · rw [if_pos hd] at hxl
            exact hxl
        · rw [if_neg hd] at hxl
          simp at hxl
    · rintro ⟨r, hr, hrip, hrd, hxr⟩
      right
      refine ⟨r.matched_rules, ?_, hxr⟩
      rw [List.mem_dedup]
      refine List.mem_map.mpr ⟨r, ?_, ?_⟩
      · have hipeq : (groupEntry records ip).ip = ip := rfl
        refine List.mem_filter.mpr ⟨hr, ?_⟩
        rw [hrip, hipeq]
        simp
      · rw [if_pos hrd]
  · rw [hrules]
    exact foldl_setUnion_nodup _ [] List.nodup_nil

/-- Witness for C9: with one flagged sqli record and one non-flagged xss
record of the same IP, the entry lists sqli and not xss. -/
theorem anomalous_ips_matched_rules_witness :
    "sqli" ∈ (groupEntry [⟨1, "t1", "9.9.9.9", true, ["sqli"], []⟩,
        ⟨2, "t2", "9.9.9.9", false, ["xss"], []⟩] "9.9.9.9").matched_rules ∧
      "xss" ∉ (groupEntry [⟨1, "t1", "9.9.9.9", true, ["sqli"], []⟩,
        ⟨2, "t2", "9.9.9.9", false, ["xss"], []⟩] "9.9.9.9").matched_rules := by
  have h := (anomalous_ips_matched_rules
    [⟨1, "t1", "9.9.9.9", true, ["sqli"], []⟩, ⟨2, "t2", "9.9.9.9", false, ["xss"], []⟩]
    (groupEntry [⟨1, "t1", "9.9.9.9", true, ["sqli"], []⟩,
      ⟨2, "t2", "9.9.9.9", false, ["xss"], []⟩] "9.9.9.9")
    (by
      rw [show get_anomalous_ips [⟨1, "t1", "9.9.9.9", true, ["sqli"], []⟩,
          ⟨2, "t2", "9.9.9.9", false, ["xss"], []⟩] =
        [groupEntry [⟨1, "t1", "9.9.9.9", true, ["sqli"], []⟩,
          ⟨2, "t2", "9.9.9.9", false, ["xss"], []⟩] "9.9.9.9"] from rfl]
      exact List.mem_singleton.mpr rfl)).1
  constructor
  · exact (h "sqli").mpr ⟨⟨1, "t1", "9.9.9.9", true, ["sqli"], []⟩,
      List.mem_cons_self _ _, rfl, rfl, List.mem_singleton.mpr rfl⟩
  · intro hx
    rcases (h "xss").mp hx with ⟨r, hr, hrip, hrd, hxr⟩
    rcases List.mem_cons.mp hr with rfl | hr
    · simp at hxr
    · rcases List.mem_cons.mp hr with rfl | hr
      · simp at hrd
      · simp at hr

/-- C8: for a record set whose window timestamps all parse (they are ISO-8601
per the data model), the sum of total_requests across the attack-timeline
buckets equals the number of records inside the queried window: the hour
bucketing partitions the window records without loss or double counting. -/
theorem attack_timeline_partition (hourKey : String → Option String) (startT endT : String)
    (records : List LogRecord) (hne : records ≠ [])
    (hp : ∀ r ∈ records, strLe startT r.timestamp = true →
      strLe r.timestamp endT = true → (hourKey r.timestamp).isSome) :
    ((get_attack_timeline hourKey startT endT records).map
        (fun b => b.total_requests)).sum =
      (records.filter (fun r => strLe startT r.timestamp && strLe r.timestamp endT)).length := by
  simp only [get_attack_timeline]
  have hall : (records.filter
      (fun r => strLe startT r.timestamp && strLe r.timestamp endT)).all
        (fun r => (hourKey r.timestamp).isSome) = true := by
    rw [List.all_eq_true]
    intro r hr
    have hm := List.mem_filter.mp hr
    have hb := hm.2
    rw [Bool.and_eq_true] at hb
    exact hp r hm.1 hb.1 hb.2
  rw [if_pos hall]
  have hperm := (sortByTsAsc_perm (fun b : TimelineBucket => b.timestamp)
    ((((records.filter (fun r => strLe startT r.timestamp && strLe r.timestamp endT)).map
        (fun r => ((hourKey r.timestamp).getD "", r))).map (fun p => p.1)).dedup.map
      (fun k =>
        ⟨k, (((records.filter
            (fun r => strLe startT r.timestamp && strLe r.timestamp endT)).map
              (fun r => ((hourKey r.timestamp).getD "", r))).filter
                (fun p => p.1 == k)).length,
          ((((records.filter
            (fun r => strLe startT r.timestamp && strLe r.timestamp endT)).map
              (fun r => ((hourKey r.timestamp).getD "", r))).filter
                (fun p => p.1 == k)).filter (fun p => p.2.injection_detected)).length⟩))).map
      (fun b : TimelineBucket => b.total_requests)
  rw [hperm.sum_eq, List.map_map]
  have hcomp : ((fun b : TimelineBucket => b.total_requests) ∘
      (fun k : String =>
        (⟨k, (((records.filter
            (fun r => strLe startT r.timestamp && strLe r.timestamp endT)).map
              (fun r => ((hourKey r.timestamp).getD "", r))).filter
                (fun p => p.1 == k)).length,
          ((((records.filter
            (fun r => strLe startT r.timestamp && strLe r.timestamp endT)).map
              (fun r => ((hourKey r.timestamp).getD "", r))).filter
                (fun p => p.1 == k)).filter
                  (fun p => p.2.injection_detected)).length⟩ : TimelineBucket))) =
      fun k : String =>
        (((records.filter (fun r => strLe startT r.timestamp && strLe r.timestamp endT)).map
          (fun r => ((hourKey r.timestamp).getD "", r))).map (fun p => p.1)).count k := by
    funext k
    show (((records.filter
        (fun r => strLe startT r.timestamp && strLe r.timestamp endT)).map
          (fun r => ((hourKey r.timestamp).getD "", r))).filter
            (fun p => p.1 == k)).length = _
    rw [← List.countP_eq_length_filter]
    simp only [List.count, List.countP_map]
    rfl
  rw [hcomp]
  rw [List.sum_map_count_dedup_eq_length, List.length_map, List.length_map]

/-- Witness for C8 at a concrete store and hour key. -/
theorem attack_timeline_partition_witness :
    ((get_attack_timeline (fun _ => some "h") "a" "z"
        [⟨1, "b", "ip1", true, [], []⟩]).map (fun b => b.total_requests)).sum =
      ([(⟨1, "b", "ip1", true, [], []⟩ : LogRecord)].filter
        (fun r => strLe "a" r.timestamp && strLe r.timestamp "z")).length :=
  attack_timeline_partition (fun _ => some "h") "a" "z" [⟨1, "b", "ip1", true, [], []⟩]
    (by simp) (fun r hr h1 h2 => rfl)

/-- Two bindings of the same key in a distinct-key association list carry the
same value. -/
theorem mem_nodupKeys_unique {β : Type} {l : List (String × β)}
    (hnd : (l.map Prod.fst).Nodup) {c : String} {s1 s2 : β}
    (h1 : (c, s1) ∈ l) (h2 : (c, s2) ∈ l) : s1 = s2 := by
  have e1 := mem_lookup_eq hnd h1
  have e2 := mem_lookup_eq hnd h2
  rw [e1] at e2
  exact Option.some.inj e2

/-- Every entry of a successful attack-origins response is the formatting of
some binding of the countries dict. -/
theorem get_attack_origins_ok_mem (r₁ r₂ : String → Option GeoInfo)
    (pt : String → Option Int) (since : String) (records : List LogRecord)
    (entries : List CountryOrigin)
    (h : get_attack_origins r₁ r₂ pt since records = OriginsResult.ok entries) :
    ∀ e ∈ entries, ∃ p ∈ countriesAcc r₁ pt (groupAttacksByIp since records),
      formatCountry r₂ p = some e := by
  unfold get_attack_origins at h
  cases hm : mapOrFail (formatCountry r₂)
      (countriesAcc r₁ pt (groupAttacksByIp since records)) with
  | none => rw [hm] at h; simp at h
  | some es =>
    rw [hm] at h
    injection h with h
    subst h
    intro e he
    have hes := (sortByKeyDesc_perm (fun c : CountryOrigin => c.attack_count) es).mem_iff.mp he
    exact mapOrFail_mem hm e hes

/-- Characterization of a successful country formatting. -/
theorem formatCountry_eq_some (r₂ : String → Option GeoInfo) (p : String × CountryStats)
    (e : CountryOrigin) (h : formatCountry r₂ p = some e) :
    ∃ rep geo, p.2.unique_ips.head? = some rep ∧ r₂ rep = some geo ∧
      e.country = p.1 ∧ e.latitude = geo.latitude ∧ e.longitude = geo.longitude ∧
      e.top_attack_types =
        (sortByKeyDesc (fun q : String × Nat => q.2) p.2.common_rules).take 5 := by
  unfold formatCountry at h
  cases hu : p.2.unique_ips.head? with
  | none => rw [hu] at h; simp at h
  | some rep =>
    rw [hu] at h
    dsimp only [] at h
    cases hr : r₂ rep with
    | none => rw [hr] at h; simp at h
    | some geo =>
      rw [hr] at h
      dsimp only [] at h
      injection h with h
      subst h
      exact ⟨rep, geo, rfl, hr, rfl, rfl, rfl, rfl⟩

/-- The rule keys of every binding of the countries dict are distinct. -/
theorem countriesAcc_rules_nodup (r₁ : String → Option GeoInfo) (pt : String → Option Int)
    (gs : List IpGroup) (c : String) (stats : CountryStats)
    (h : (c, stats) ∈ countriesAcc r₁ pt gs) :
    (stats.common_rules.map Prod.fst).Nodup := by
  rw [mem_countriesAcc_eq r₁ pt gs c stats h]
  exact foldl_applyGroup_rules_nodup pt _ _ (by simp)

/-- A table member under distinct keys reads back its own count. -/
theorem lookupCount_of_mem {tbl : List (String × Nat)}
    (hnd : (tbl.map Prod.fst).Nodup) {p : String × Nat} (hp : p ∈ tbl) :
    lookupCount tbl p.1 = p.2 := by
  unfold lookupCount
  rw [mem_lookup_eq hnd hp]

/-- A rule absent from the table keys has count zero. -/
theorem lookupCount_eq_zero {tbl : List (String × Nat)} {rule : String}
    (h : rule ∉ tbl.map Prod.fst) : lookupCount tbl rule = 0 := by
  unfold lookupCount
  cases hl : tbl.lookup rule with
  | none => rfl
  | some v => exact absurd (List.mem_map.mpr ⟨(rule, v), lookup_mem hl, rfl⟩) h

/-- The rule table of a country binding counts exactly the per-IP
deduplicated rule occurrences of that country, provided every stored
timestamp parses. -/
theorem countriesAcc_rule_count (r₁ : String → Option GeoInfo) (pt : String → Option Int)
    (since : String) (records : List LogRecord) (c : String) (stats : CountryStats)
    (Hpt : ∀ r ∈ records, (pt r.timestamp).isSome)
    (h : (c, stats) ∈ countriesAcc r₁ pt (groupAttacksByIp since records))
    (rule : String) :
    lookupCount stats.common_rules rule = specCountryRuleCount r₁ since records c rule := by
  have heq := mem_countriesAcc_eq r₁ pt _ c stats h
  have hsome : ∀ g ∈ (groupAttacksByIp since records).filter
      (fun g => resolveIp r₁ g.ip == some c), (pt g.last_attack).isSome := by
    intro g hg
    exact groups_pt_isSome pt since records Hpt g (List.mem_of_mem_filter hg)
  rw [heq, foldl_applyGroup_rules pt _ _ hsome rule]
  rw [show lookupCount (⟨0, [], none, []⟩ : CountryStats).common_rules rule = 0 from rfl]
  rw [groupAttacksByIp_filter r₁ since records c, List.map_map, Nat.zero_add]
  rfl

/-- C3 counterexample: two identical flagged records of the same IP carry the
rule sqli twice, so the claim requires a count of 2 (and the claimed
per-record tally claimCountryRuleCount is indeed 2), but the addToSet stage
deduplicates identical rule lists per IP and the endpoint reports count 1.
Also, with a single record firing b before a, the tied rules are emitted in
first-seen order b, a, not in ascending rule order a, b. -/
theorem attack_origins_top_rules_cex :
    get_attack_origins (fun _ => some ⟨some "Germany", some 52, some 13⟩)
        (fun _ => some ⟨some "Germany", some 52, some 13⟩) (fun _ => some 0) ""
        [⟨1, "2024-01-01T00:00:00", "1.1.1.1", true, ["sqli"], []⟩,
         ⟨2, "2024-01-01T00:00:00", "1.1.1.1", true, ["sqli"], []⟩] =
      OriginsResult.ok [⟨"Germany", 2, 1, some 0, some 52, some 13, [("sqli", 1)]⟩] ∧
    claimCountryRuleCount (fun _ => some ⟨some "Germany", some 52, some 13⟩) ""
        [⟨1, "2024-01-01T00:00:00", "1.1.1.1", true, ["sqli"], []⟩,
         ⟨2, "2024-01-01T00:00:00", "1.1.1.1", true, ["sqli"], []⟩] "Germany" "sqli" = 2 ∧
    get_attack_origins (fun _ => some ⟨some "Germany", some 52, some 13⟩)
        (fun _ => some ⟨some "Germany", some 52, some 13⟩) (fun _ => some 0) ""
        [⟨1, "2024-01-01T00:00:00", "2.2.2.2", true, ["b", "a"], []⟩] =
      OriginsResult.ok [⟨"Germany", 1, 1, some 0, some 52, some 13, [("b", 1), ("a", 1)]⟩] := by
  refine ⟨by decide, by decide, by decide⟩

/-- C3 amended: in every emitted country, each rule count of top_attack_types
equals the occurrences of that rule summed over the distinct matched-rule
lists of each of the contributing resolved IPs of that country (identical
lists of one IP counted once); top_attack_types has at most 5 entries, in
descending count order, and every rule left out has a count at most every
listed count.  Requires that stored timestamps parse (they are ISO-8601 per
the data model). -/
theorem attack_origins_top_rules (r₁ r₂ : String → Option GeoInfo)
    (pt : String → Option Int) (since : String) (records : List LogRecord)
    (Hpt : ∀ r ∈ records, (pt r.timestamp).isSome)
    (entries : List CountryOrigin)
    (hok : get_attack_origins r₁ r₂ pt since records = OriginsResult.ok entries)
    (e : CountryOrigin) (he : e ∈ entries) :
    (∀ p ∈ e.top_attack_types,
      p.2 = specCountryRuleCount r₁ since records e.country p.1) ∧
    e.top_attack_types.length ≤ 5 ∧
    e.top_attack_types.Pairwise (fun p q => q.2 ≤ p.2) ∧
    (∀ rule : String, rule ∉ e.top_attack_types.map Prod.fst →
      ∀ p ∈ e.top_attack_types,
        specCountryRuleCount r₁ since records e.country rule ≤ p.2) := by
  rcases get_attack_origins_ok_mem r₁ r₂ pt since records entries hok e he with ⟨q, hq, hfmt⟩
  obtain ⟨c, stats⟩ := q
  rcases formatCountry_eq_some r₂ _ e hfmt with ⟨rep, geo, _, _, hcountry, _, _, htop⟩
  have hnd : (stats.common_rules.map Prod.fst).Nodup :=
    countriesAcc_rules_nodup r₁ pt _ c stats hq
  have hcount : ∀ p ∈ stats.common_rules,
      p.2 = specCountryRuleCount r₁ since records c p.1 := by
    intro p hp
    rw [← lookupCount_of_mem hnd hp]
    exact countriesAcc_rule_count r₁ pt since records c stats Hpt hq p.1
  have hsorted := sortByKeyDesc_pairwise (fun q : String × Nat => q.2) stats.common_rules
  have hperm := sortByKeyDesc_perm (fun q : String × Nat => q.2) stats.common_rules
  refine ⟨?_, ?_, ?_, ?_⟩
  · intro p hp
    rw [htop] at hp
    have hp3 : p ∈ stats.common_rules := hperm.mem_iff.mp (List.take_subset _ _ hp)
    rw [hcountry]
    exact hcount p hp3
  · rw [htop, List.length_take]
    exact min_le_left _ _
  · rw [htop]
    exact pairwise_take hsorted 5
  · intro rule hrule p hp
    rw [htop] at hp
    rw [hcountry]
    by_cases hmem : rule ∈ stats.common_rules.map Prod.fst
    · rcases List.mem_map.mp hmem with ⟨q2, hq2, hq2e⟩
      have hq2sorted : q2 ∈ sortByKeyDesc (fun q : String × Nat => q.2) stats.common_rules :=
        hperm.mem_iff.mpr hq2
      have hq2take : q2 ∉
          (sortByKeyDesc (fun q : String × Nat => q.2) stats.common_rules).take 5 := by
        intro hc
        apply hrule
        rw [htop]
        exact List.mem_map.mpr ⟨q2, hc, hq2e⟩
      have hq2drop : q2 ∈
          (sortByKeyDesc (fun q : String × Nat => q.2) stats.common_rules).drop 5 := by
        have hsplit := hq2sorted
        rw [← List.take_append_drop 5
          (sortByKeyDesc (fun q : String × Nat => q.2) stats.common_rules)] at hsplit
        rcases List.mem_append.mp hsplit with h | h
        · exact absurd h hq2take
        · exact h
      have hdom := pairwise_take_drop hsorted 5 p hp q2 hq2drop
      have hspec : specCountryRuleCount r₁ since records c rule = q2.2 := by
        rw [← hq2e]
        exact (hcount q2 hq2).symm
      rw [hspec]
      exact hdom
    · have h0 : specCountryRuleCount r₁ since records c rule = 0 := by
        rw [← countriesAcc_rule_count r₁ pt since records c stats Hpt hq rule]
        exact lookupCount_eq_zero hmem
      rw [h0]
      exact Nat.zero_le _

/-- Witness for C3 amended at a concrete store and resolver. -/
theorem attack_origins_top_rules_witness :
    (("sqli", 1) : String × Nat).2 =
      specCountryRuleCount (fun _ => some ⟨some "Germany", some 52, some 13⟩) ""
        [⟨1, "2024-01-01T00:00:00", "1.1.1.1", true, ["sqli"], []⟩]
        (⟨"Germany", 1, 1, some 0, some 52, some 13,
          [("sqli", 1)]⟩ : CountryOrigin).country "sqli" :=
  (attack_origins_top_rules (fun _ => some ⟨some "Germany", some 52, some 13⟩)
    (fun _ => some ⟨some "Germany", some 52, some 13⟩) (fun _ => some 0) ""
    [⟨1, "2024-01-01T00:00:00", "1.1.1.1", true, ["sqli"], []⟩]
    (fun r hr => rfl)
    [⟨"Germany", 1, 1, some 0, some 52, some 13, [("sqli", 1)]⟩]
    (by decide)
    ⟨"Germany", 1, 1, some 0, some 52, some 13, [("sqli", 1)]⟩
    (by decide)).1 ("sqli", 1) (by decide)

/-- C4 counterexample: the first-phase resolver succeeds for the only IP, so
the country is accumulated, but the representative lookup in the formatting
loop raises; the endpoint then answers with the request-level error response
instead of emitting the country with null coordinates as the claim states. -/
theorem attack_origins_rep_failure_cex :
    get_attack_origins
        (fun ip => if ip == "1.1.1.1" then some ⟨some "Germany", some 52, some 13⟩ else none)
        (fun _ => none) (fun _ => some 0) ""
        [⟨1, "2024-01-01T00:00:00", "1.1.1.1", true, ["sqli"], []⟩] =
      OriginsResult.error ∧
    countriesAcc
        (fun ip => if ip == "1.1.1.1" then some ⟨some "Germany", some 52, some 13⟩ else none)
        (fun _ => some 0)
        (groupAttacksByIp "" [⟨1, "2024-01-01T00:00:00", "1.1.1.1", true, ["sqli"], []⟩]) =
      [("Germany", ⟨1, ["1.1.1.1"], some 0, [("sqli", 1)]⟩)] := by
  refine ⟨by decide, by decide⟩

/-- C4 amended: if the representative lookup of any accumulated country
raises, the WHOLE request answers with the error response (no country entry
is emitted at all); and whenever a country entry is emitted, its coordinates
are exactly those reported by the successful representative lookup, so null
coordinates arise only from a successful resolution carrying no latitude or
longitude. -/
theorem attack_origins_rep_resolution (r₁ r₂ : String → Option GeoInfo)
    (pt : String → Option Int) (since : String) (records : List LogRecord) :
    (∀ c stats rep, (c, stats) ∈ countriesAcc r₁ pt (groupAttacksByIp since records) →
      stats.unique_ips.head? = some rep → r₂ rep = none →
      get_attack_origins r₁ r₂ pt since records = OriginsResult.error) ∧
    (∀ c stats rep geo,
      (c, stats) ∈ countriesAcc r₁ pt (groupAttacksByIp since records) →
      stats.unique_ips.head? = some rep → r₂ rep = some geo →
      ∀ entries, get_attack_origins r₁ r₂ pt since records = OriginsResult.ok entries →
      ∀ e ∈ entries, e.country = c →
        e.latitude = geo.latitude ∧ e.longitude = geo.longitude) := by
  constructor
  · intro c stats rep hmem hrep hr2
    have hfmt : formatCountry r₂ (c, stats) = none := by
      unfold formatCountry
      rw [hrep]
      dsimp only []
      rw [hr2]
    unfold get_attack_origins
    rw [mapOrFail_none hmem hfmt]
  · intro c stats rep geo hmem hrep hr2 entries hok e he hec
    rcases get_attack_origins_ok_mem r₁ r₂ pt since records entries hok e he
      with ⟨q, hq, hfmt⟩
    obtain ⟨c2, stats2⟩ := q
    rcases formatCountry_eq_some r₂ _ e hfmt with
      ⟨rep2, geo2, hrep2, hr22, hcountry, hlat, hlon, _⟩
    have hc2 : c2 = c := hcountry.symm.trans hec
    subst hc2
    have hstats : stats2 = stats :=
      mem_nodupKeys_unique (countriesAcc_keys_nodup r₁ pt _) hq hmem
    subst hstats
    have hrepeq : rep2 = rep := by
      rw [hrep] at hrep2
      exact (Option.some.inj hrep2).symm
    subst hrepeq
    have hgeoeq : geo2 = geo := by
      rw [hr2] at hr22
      exact (Option.some.inj hr22).symm
    subst hgeoeq
    exact ⟨hlat, hlon⟩

/-- Witness for C4 amended: a successful representative lookup reporting no
coordinates yields a country entry with null latitude and longitude. -/
theorem attack_origins_rep_resolution_witness :
    (⟨"Germany", 1, 1, some 0, none, none, [("sqli", 1)]⟩ : CountryOrigin).latitude = none ∧
    (⟨"Germany", 1, 1, some 0, none, none, [("sqli", 1)]⟩ : CountryOrigin).longitude = none :=
  (attack_origins_rep_resolution
    (fun _ => some ⟨some "Germany", some 52, some 13⟩)
    (fun _ => some ⟨some "Germany", none, none⟩) (fun _ => some 0) ""
    [⟨1, "2024-01-01T00:00:00", "1.1.1.1", true, ["sqli"], []⟩]).2
    "Germany" ⟨1, ["1.1.1.1"], some 0, [("sqli", 1)]⟩ "1.1.1.1"
    ⟨some "Germany", none, none⟩ (by decide) (by decide) rfl
    [⟨"Germany", 1, 1, some 0, none, none, [("sqli", 1)]⟩] (by decide)
    ⟨"Germany", 1, 1, some 0, none, none, [("sqli", 1)]⟩ (by decide) rfl
